import Mathlib

/-!
Verification of the core NEAT evolution engine (genome model, graph analysis,
stagnation, reproduction, evolution driver, feed-forward phenotype).

JavaScript numbers are modelled as rationals (ℚ); `Math.round` is modelled by
`jround` below (JS rounds half toward positive infinity).  JavaScript `Map` /
object maps keyed by node or connection keys are modelled as association
lists with `Map.set` semantics (replace in place, or append when absent).
Loops whose termination is data driven are modelled with an explicit fuel
argument that is provably at least the number of iterations the JS loop can
perform (each productive iteration adds at least one node drawn from the
endpoints of the connection list, so `connections.length + 1` rounds always
suffice).
-/

namespace NeatVerif

/-- Decidable equality for `Except` results (used to evaluate the embedded
fallible functions on concrete inputs). -/
instance {ε α : Type} [DecidableEq ε] [DecidableEq α] :
    DecidableEq (Except ε α) := fun x y =>
  match x, y with
  | .ok a, .ok b =>
    if h : a = b then .isTrue (by rw [h]) else .isFalse (by simp [h])
  | .error a, .error b =>
    if h : a = b then .isTrue (by rw [h]) else .isFalse (by simp [h])
  | .ok _, .error _ => .isFalse (by simp)
  | .error _, .ok _ => .isFalse (by simp)

/-- JS `Math.round`: rounds half toward positive infinity. -/
def jround (x : ℚ) : ℤ := ⌊x + 1/2⌋

namespace Util

/-- JS `Map.prototype.set` / object property assignment on an association
list: replace the value in place when the key exists, append otherwise. -/
def setKV {κ α : Type} [DecidableEq κ] (m : List (κ × α)) (k : κ) (v : α) :
    List (κ × α) :=
  if (m.find? (fun p => decide (p.1 = k))).isSome then
    m.map (fun p => if p.1 = k then (k, v) else p)
  else m ++ [(k, v)]

/-- Map lookup on an association list. -/
def getKV {κ α : Type} [DecidableEq κ] (m : List (κ × α)) (k : κ) : Option α :=
  (m.find? (fun p => decide (p.1 = k))).map (fun p => p.2)

end Util

/-! ## Reproduction: `DefaultReproduction.compute_spawn` (part_006 lines 75-118) -/

namespace Repro

/-- The body of the first `compute_spawn` loop: the fitness-proportional
target size `s` for one species, blended halfway toward its previous size
`ps` (with a unit nudge when the rounded delta is zero but the true delta is
nonzero). -/
def spawnBlend (af_sum pop_size min_species_size : ℚ) (p : ℚ × ℚ) : ℚ :=
  let af := p.1
  let ps := p.2
  let s := if af_sum > 0 then max min_species_size (af / af_sum * pop_size)
           else min_species_size
  let d := (s - ps) * (1/2)
  let c := jround d
  if |c| > 0 then ps + (c : ℚ)
  else if d > 0 then ps + 1
  else if d < 0 then ps - 1
  else ps

/-- Embeds `DefaultReproduction.compute_spawn`.  The JS loop reads
`adjusted_fitnesses[i]` and `previous_sizes[i]` in lockstep, which is the
zip of the two lists when they have equal length (as at the call site). -/
def compute_spawn (adjusted_fitnesses previous_sizes : List ℚ)
    (pop_size min_species_size : ℚ) : List ℚ :=
  let af_sum := adjusted_fitnesses.sum
  let spawn_amounts := (adjusted_fitnesses.zip previous_sizes).map
    (spawnBlend af_sum pop_size min_species_size)
  let total_spawn := spawn_amounts.sum
  if total_spawn = 0 then spawn_amounts.map (fun _ => min_species_size)
  else
    let norm := pop_size / total_spawn
    spawn_amounts.map (fun n => max min_species_size ((jround (n * norm) : ℤ) : ℚ))

/-! ### `DefaultReproduction.reproduce` (part_006 lines 128-253).

Genomes are abstracted to their key and fitness; the offspring genome
produced by `configure_crossover` + `mutate` is an oracle `childVal` of the
child key and the two parent keys, and the two `choice(potential_parents)`
draws are an oracle `pick` of a running draw counter.  `Math.min(...)` /
`Math.max(...)` of an empty fitness list is `Infinity` / `-Infinity` in JS,
which ℚ cannot represent; the placeholder 0 is used instead — those values
only flow into the spawn quotas, never into the population-size
accounting. -/

/-- `Math.min(...values)` (0 for the unrepresentable empty case). -/
def jsMin (l : List ℚ) : ℚ :=
  match l with
  | [] => 0
  | h :: t => t.foldl min h

/-- `Math.max(...values)` (0 for the unrepresentable empty case). -/
def jsMax (l : List ℚ) : ℚ :=
  match l with
  | [] => 0
  | h :: t => t.foldl max h

/-- `mean` from mathUtil.js: sum over length, 0 for an empty list. -/
def jsMean (l : List ℚ) : ℚ := if l = [] then 0 else l.sum / (l.length : ℚ)

/-- One species as `reproduce` reads it: its key and its members
(genome key, fitness). -/
structure RSpecies where
  skey : ℤ
  members : List (ℕ × ℚ)

/-- The reproduction configuration parameters. -/
structure RConfig where
  elitism : ℕ
  survival_threshold : ℚ
  min_species_size : ℚ

/-- Stable insertion for the descending member sort (comparator
`(a, b) => b.fitness - a.fitness`; earlier members stay first among
ties). -/
def insertDesc (a : ℕ × ℚ) : List (ℕ × ℚ) → List (ℕ × ℚ)
  | [] => [a]
  | b :: t => if b.2 > a.2 then b :: insertDesc a t else a :: b :: t

/-- Stable descending sort of species members by fitness. -/
def sortDesc : List (ℕ × ℚ) → List (ℕ × ℚ)
  | [] => []
  | a :: t => insertDesc a (sortDesc t)

/-- The elite-transfer loop: move up to `elitism` sorted members into the
new population, inserting (and consuming quota) only while the new
population is below `pop_size`. -/
def eliteLoop (pop_size : ℕ) :
    List (ℕ × ℚ) → List (ℕ × ℚ) → ℚ → List (ℕ × ℚ) × ℚ
  | [], newpop, spawn => (newpop, spawn)
  | m :: rest, newpop, spawn =>
    if newpop.length < pop_size then
      eliteLoop pop_size rest (Util.setKV newpop m.1 m.2) (spawn - 1)
    else eliteLoop pop_size rest newpop spawn

/-- The offspring loop `while (spawn-- > 0)`: the fuel is the number of
iterations the decrementing guard allows, and the loop breaks as soon as
the new population reaches `pop_size`.  State: new population, genome
indexer, draw counter. -/
def offspringLoop (pop_size : ℕ) (childVal : ℕ → ℕ → ℕ → ℚ) (pick : ℕ → ℕ)
    (parents : List (ℕ × ℚ)) :
    ℕ → List (ℕ × ℚ) → ℕ → ℕ → List (ℕ × ℚ) × ℕ × ℕ
  | 0, newpop, indexer, pc => (newpop, indexer, pc)
  | fuel + 1, newpop, indexer, pc =>
    if newpop.length ≥ pop_size then (newpop, indexer, pc)
    else
      let p1 := parents.getD (pick pc % parents.length) (0, 0)
      let p2 := parents.getD (pick (pc + 1) % parents.length) (0, 0)
      offspringLoop pop_size childVal pick parents fuel
        (Util.setKV newpop indexer (childVal indexer p1.1 p2.1)) (indexer + 1)
        (pc + 2)

/-- The per-species loop of `reproduce` over the remaining species paired
with their spawn amounts. -/
def speciesLoop (cfg : RConfig) (pop_size : ℕ) (childVal : ℕ → ℕ → ℕ → ℚ)
    (pick : ℕ → ℕ) :
    List (RSpecies × ℚ) → List (ℕ × ℚ) → ℕ → ℕ → List (ℕ × ℚ)
  | [], newpop, _, _ => newpop
  | (s, amt) :: rest, newpop, indexer, pc =>
    let spawn := max amt (cfg.elitism : ℚ)
    if spawn ≤ 0 then speciesLoop cfg pop_size childVal pick rest newpop indexer pc
    else
      let old_members := sortDesc s.members
      let afterElites := eliteLoop pop_size (old_members.take cfg.elitism) newpop spawn
      if afterElites.2 ≤ 0 then
        speciesLoop cfg pop_size childVal pick rest afterElites.1 indexer pc
      else
        let repro_cutoff := max 2 (Int.ceil (cfg.survival_threshold *
          (old_members.length : ℚ))).toNat
        let potential_parents := old_members.take repro_cutoff
        let afterOffspring := offspringLoop pop_size childVal pick
          potential_parents (Int.ceil afterElites.2).toNat afterElites.1 indexer pc
        speciesLoop cfg pop_size childVal pick rest afterOffspring.1
          afterOffspring.2.1 afterOffspring.2.2

/-- `DefaultReproduction.reproduce`: drop stagnant species (their flags
come from the stagnation handler as input), compute adjusted fitnesses and
spawn quotas, then build the next generation from elites and offspring. -/
def reproduce (cfg : RConfig) (stag : List (ℤ × RSpecies × Bool))
    (pop_size : ℕ) (childVal : ℕ → ℕ → ℕ → ℚ) (pick : ℕ → ℕ) (indexer : ℕ) :
    List (ℕ × ℚ) :=
  let remaining := (stag.filter (fun t => !t.2.2)).map (fun t => t.2.1)
  if remaining.length = 0 then []
  else
    let all_fitnesses := remaining.flatMap (fun s => s.members.map Prod.snd) ++
      remaining.flatMap (fun s => s.members.map Prod.snd)
    let min_fitness := jsMin all_fitnesses
    let max_fitness := jsMax all_fitnesses
    let fitness_range := max 1 (max_fitness - min_fitness)
    let adjusted_fitnesses := remaining.map (fun s =>
      (jsMean (s.members.map Prod.snd) - min_fitness) / fitness_range)
    let previous_sizes := remaining.map (fun s => (s.members.length : ℚ))
    let min_species_size := max cfg.min_species_size (cfg.elitism : ℚ)
    let spawn_amounts := compute_spawn adjusted_fitnesses previous_sizes
      (pop_size : ℚ) min_species_size
    speciesLoop cfg pop_size childVal pick (remaining.zip spawn_amounts) []
      indexer 0

end Repro

/-! ## Gene model and genomic compatibility distance (genes.js, genome.js) -/

namespace Gen

/-- `DefaultNodeGene`: key, bias, response, activation and aggregation names. -/
structure NodeGene where
  key : ℤ
  bias : ℚ
  response : ℚ
  activation : String
  aggregation : String
deriving DecidableEq

/-- `DefaultConnectionGene`: `(in, out)` key, weight and enabled flag. -/
structure ConnectionGene where
  key : ℤ × ℤ
  weight : ℚ
  enabled : Bool
deriving DecidableEq

/-- The slice of `DefaultGenomeConfig` that the distance metric reads. -/
structure GenomeConfig where
  compatibility_disjoint_coefficient : ℚ
  compatibility_weight_coefficient : ℚ

/-- `DefaultNodeGene.distance` (genes.js). -/
def nodeDistance (a b : NodeGene) (config : GenomeConfig) : ℚ :=
  let d0 := |a.bias - b.bias| + |a.response - b.response|
  let d1 := if a.activation ≠ b.activation then d0 + 1 else d0
  let d2 := if a.aggregation ≠ b.aggregation then d1 + 1 else d1
  d2 * config.compatibility_weight_coefficient

/-- `DefaultConnectionGene.distance` (genes.js). -/
def connDistance (a b : ConnectionGene) (config : GenomeConfig) : ℚ :=
  let d0 := |a.weight - b.weight|
  let d1 := if a.enabled ≠ b.enabled then d0 + 1 else d0
  d1 * config.compatibility_weight_coefficient

/-- `DefaultGenome`: node genes and connection genes in key-indexed maps,
modelled as association lists (JS object/`Map` insertion semantics). -/
structure Genome where
  key : ℤ
  nodes : List (ℤ × NodeGene)
  connections : List ((ℤ × ℤ) × ConnectionGene)
  fitness : Option ℚ

/-- Property lookup `g.nodes[key]`. -/
def lookupNode (g : Genome) (k : ℤ) : Option NodeGene :=
  (g.nodes.find? (fun p => decide (p.1 = k))).map (fun p => p.2)

/-- Property lookup `g.connections[key]`. -/
def lookupConn (g : Genome) (k : ℤ × ℤ) : Option ConnectionGene :=
  (g.connections.find? (fun p => decide (p.1 = k))).map (fun p => p.2)

/-- The shared-key branch of the distance loops: when both genomes own the
key, add the per-key gene distance; a key missing on either side contributes
through the disjoint count instead. -/
def genePairDist {α : Type} (f : α → α → ℚ) : Option α → Option α → ℚ
  | some a, some b => f a b
  | _, _ => 0

/-- `DefaultGenome.distance` (genome.js lines 285-320): per-key gene distances
over shared keys plus the disjoint coefficient times the count of keys present
in only one genome, each normalized by `max 1 (union size)`, for nodes and for
connections, summed. -/
def distance (g1 g2 : Genome) (config : GenomeConfig) : ℚ :=
  let node_keys1 := (g1.nodes.map Prod.fst).toFinset
  let node_keys2 := (g2.nodes.map Prod.fst).toFinset
  let all_node_keys := node_keys1 ∪ node_keys2
  let shared_nodes := all_node_keys.filter (fun k => k ∈ node_keys1 ∧ k ∈ node_keys2)
  let disjoint_nodes := all_node_keys.filter (fun k => ¬(k ∈ node_keys1 ∧ k ∈ node_keys2))
  let node_distance :=
    (shared_nodes.sum (fun k =>
        genePairDist (fun a b => nodeDistance a b config)
          (lookupNode g1 k) (lookupNode g2 k))
      + config.compatibility_disjoint_coefficient * (disjoint_nodes.card : ℚ))
    / max 1 (all_node_keys.card : ℚ)
  let conn_keys1 := (g1.connections.map Prod.fst).toFinset
  let conn_keys2 := (g2.connections.map Prod.fst).toFinset
  let all_conn_keys := conn_keys1 ∪ conn_keys2
  let shared_conns := all_conn_keys.filter (fun k => k ∈ conn_keys1 ∧ k ∈ conn_keys2)
  let disjoint_conns := all_conn_keys.filter (fun k => ¬(k ∈ conn_keys1 ∧ k ∈ conn_keys2))
  let conn_distance :=
    (shared_conns.sum (fun k =>
        genePairDist (fun a b => connDistance a b config)
          (lookupConn g1 k) (lookupConn g2 k))
      + config.compatibility_disjoint_coefficient * (disjoint_conns.card : ℚ))
    / max 1 (all_conn_keys.card : ℚ)
  node_distance + conn_distance

end Gen

/-! ## Graph analysis (part_009): createsCycle, requiredForOutput,
feedForwardLayers.

Node identifiers are integers.  The unbounded `while (true)` loops take an
explicit fuel of `connections.length + 1`: every round that does not return
adds at least one node that is an endpoint of some connection to the visited
set, so at most `connections.length` productive rounds can happen and the
round after them returns; hence this fuel never runs out and the fuel-zero
branch is unreachable. -/

namespace Graphs

/-- The directed-edge relation of a connection list. -/
def Edge (connections : List (ℤ × ℤ)) (a b : ℤ) : Prop := (a, b) ∈ connections

instance (connections : List (ℤ × ℤ)) (a b : ℤ) :
    Decidable (Edge connections a b) := by
  unfold Edge; infer_instance

/-- The targets (second components) of a connection list, as a set. -/
def targets (connections : List (ℤ × ℤ)) : Finset ℤ :=
  (connections.map Prod.snd).toFinset

/-- One full pass of the `createsCycle` traversal over the connection list:
visits every connection in order; a connection whose source is visited and
whose target is not either returns (`none`, modelling the early `return
true` when the target is `i`) or inserts the target and bumps `numAdded`. -/
def ccPass (i : ℤ) : List (ℤ × ℤ) → Finset ℤ → ℕ → Option (Finset ℤ × ℕ)
  | [], visited, numAdded => some (visited, numAdded)
  | c :: rest, visited, numAdded =>
    if c.1 ∈ visited ∧ c.2 ∉ visited then
      if c.2 = i then none
      else ccPass i rest (insert c.2 visited) (numAdded + 1)
    else ccPass i rest visited numAdded

/-- The `while (true)` loop of `createsCycle`: repeat passes until a pass
returns `true` (`none`) or adds nothing. -/
def ccLoop (i : ℤ) (connections : List (ℤ × ℤ)) : ℕ → Finset ℤ → Bool
  | 0, _ => false
  | fuel + 1, visited =>
    match ccPass i connections visited 0 with
    | none => true
    | some (v, numAdded) => if numAdded = 0 then false else ccLoop i connections fuel v

/-- `createsCycle(connections, test)` (part_009 lines 14-45). -/
def createsCycle (connections : List (ℤ × ℤ)) (test : ℤ × ℤ) : Bool :=
  if test.1 = test.2 then true
  else ccLoop test.1 connections (connections.length + 1) {test.2}

/-- The `while (true)` loop of `requiredForOutput`: grow `required` by the
non-input predecessors of the current search set `s` until no new
predecessor (or only input predecessors) remains. -/
def rfoLoop (connections : List (ℤ × ℤ)) (inputSet : Finset ℤ) :
    ℕ → Finset ℤ → Finset ℤ → Finset ℤ
  | 0, required, _ => required
  | fuel + 1, required, s =>
    let t := ((connections.filter (fun c => decide (c.2 ∈ s ∧ c.1 ∉ s))).map
      Prod.fst).toFinset
    if t = ∅ then required
    else
      let layerNodes := t.filter (fun n => n ∉ inputSet)
      if layerNodes = ∅ then required
      else rfoLoop connections inputSet fuel (required ∪ layerNodes) (s ∪ t)

/-- `requiredForOutput(inputs, outputs, connections)` (part_009 lines
56-111): errors when the input and output sets overlap, otherwise the
backward reachability set seeded with the outputs. -/
def requiredForOutput (inputs outputs : List ℤ) (connections : List (ℤ × ℤ)) :
    Except String (Finset ℤ) :=
  let inputSet := inputs.toFinset
  let outputSet := outputs.toFinset
  if ∃ id ∈ inputSet, id ∈ outputSet then
    .error "Input and output node sets should be disjoint."
  else
    .ok (rfoLoop connections inputSet (connections.length + 1) outputSet outputSet)

/-- The readiness test of `feedForwardLayers`: all connections incoming to
`n` originate in the already-evaluated set `s`. -/
def allInputsReady (connections : List (ℤ × ℤ)) (s : Finset ℤ) (n : ℤ) : Bool :=
  (connections.filter (fun d => decide (d.2 = n))).all (fun c => decide (c.1 ∈ s))

/-- The `while (true)` loop of `feedForwardLayers`: emit the frontier of
required nodes all of whose incoming connections originate in the
already-evaluated set `s`, until no new frontier forms. -/
def fflLoop (connections : List (ℤ × ℤ)) (required : Finset ℤ) :
    ℕ → Finset ℤ → List (Finset ℤ)
  | 0, _ => []
  | fuel + 1, s =>
    let candidates := ((connections.filter (fun c => decide (c.1 ∈ s ∧ c.2 ∉ s))).map
      Prod.snd).toFinset
    let nextLayer := candidates.filter (fun n =>
      n ∈ required ∧ allInputsReady connections s n = true)
    if nextLayer = ∅ then []
    else nextLayer :: fflLoop connections required fuel (s ∪ nextLayer)

/-- `feedForwardLayers(inputs, outputs, connections)` (part_009 lines
122-169); propagates the disjointness error of `requiredForOutput`. -/
def feedForwardLayers (inputs outputs : List ℤ) (connections : List (ℤ × ℤ)) :
    Except String (List (Finset ℤ)) :=
  (requiredForOutput inputs outputs connections).map (fun required =>
    fflLoop connections required (connections.length + 1) inputs.toFinset)

/-- The union of all emitted layers. -/
def layersUnion (layers : List (Finset ℤ)) : Finset ℤ :=
  layers.foldr (· ∪ ·) ∅

/-- The layering soundness predicate: starting from the already-evaluated
set `s`, every node of each successive layer has all of its incoming edge
sources inside `s` extended by the preceding layers. -/
def LayeredFrom (conns : List (ℤ × ℤ)) : Finset ℤ → List (Finset ℤ) → Prop
  | _, [] => True
  | s, L :: rest =>
    (∀ n ∈ L, ∀ c ∈ conns, c.2 = n → c.1 ∈ s) ∧ LayeredFrom conns (s ∪ L) rest

end Graphs

/-! ## Structural mutations (genome.js): `mutate_add_connection` (lines
247-265) and `mutate_add_node` (lines 222-236).

The random draws are parameters: the sampled output-capable node
`out_node`, the sampled input-capable node `in_node`, the initialized
attributes of a freshly created connection gene (`w`, `en`), the connection
chosen for splitting `c`, the fresh node key `newNodeId` handed out by
`config.get_new_node_key` (it throws on a key collision, so the key is not
an existing node key; node keys are non-negative past the outputs while
declared inputs are negative, so a fresh key is an endpoint of no existing
connection), and the created node gene `newNode`.  The `ac_*` parameters
feed the `mutate_add_connection` call that `mutate_add_node` makes when the
genome has no connections and `structural_mutation_surer` holds. -/

namespace Gen

/-- The connection keys (directed edges) of a genome, enabled or not —
`mutate_add_connection` tests `createsCycle` against all of them. -/
def connKeys (g : Genome) : List (ℤ × ℤ) := g.connections.map Prod.fst

/-- The keys of the enabled connections of a genome. -/
def enabledKeys (g : Genome) : List (ℤ × ℤ) :=
  (g.connections.filter (fun p => p.2.enabled)).map Prod.fst

/-- Acyclicity of a directed edge list. -/
def Acyclic (E : List (ℤ × ℤ)) : Prop :=
  ∀ x : ℤ, ¬ Relation.TransGen (Graphs.Edge E) x x

/-- `DefaultGenome.mutate_add_connection`: silently declines on a missing
node pool, a duplicate key, an output-to-output pair, or (when feed-forward
is required) a cycle-creating pair; otherwise inserts the new gene. -/
def mutate_add_connection (output_keys : List ℤ) (feed_forward : Bool)
    (g : Genome) (in_node out_node : ℤ) (w : ℚ) (en : Bool) : Genome :=
  if g.nodes.length = 0 then g
  else
    let key := (in_node, out_node)
    if (lookupConn g key).isSome then g
    else if in_node ∈ output_keys ∧ out_node ∈ output_keys then g
    else if feed_forward = true ∧ Graphs.createsCycle (connKeys g) key = true then g
    else { g with connections := Util.setKV g.connections key ⟨key, w, en⟩ }

/-- `DefaultGenome.mutate_add_node`: with no connection to split, either
declines or (when `structural_mutation_surer` holds) adds a connection
instead; otherwise inserts a fresh node, disables the chosen connection
`c`, and replaces it by `c.in → new` (weight 1) and `new → c.out` (the old
weight), both enabled. -/
def mutate_add_node (output_keys : List ℤ) (feed_forward surer : Bool)
    (g : Genome) (c : (ℤ × ℤ) × ConnectionGene) (newNodeId : ℤ)
    (newNode : NodeGene) (ac_in ac_out : ℤ) (ac_w : ℚ) (ac_en : Bool) : Genome :=
  if g.connections.length = 0 then
    if surer then
      mutate_add_connection output_keys feed_forward g ac_in ac_out ac_w ac_en
    else g
  else
    let inNode := c.1.1
    let outNode := c.1.2
    let g1 : Genome := { g with
      nodes := g.nodes ++ [(newNodeId, newNode)]
      connections := g.connections.map (fun p =>
        if p.1 = c.1 then (p.1, { p.2 with enabled := false }) else p) }
    let g2 : Genome := { g1 with
      connections := Util.setKV g1.connections (inNode, newNodeId)
        ⟨(inNode, newNodeId), 1, true⟩ }
    { g2 with
      connections := Util.setKV g2.connections (newNodeId, outNode)
        ⟨(newNodeId, outNode), c.2.weight, true⟩ }

end Gen

/-! ## Stagnation tracker: `DefaultStagnation.update` (stagnation.js lines
58-122).

The species-fitness statistic (`mean`/`max`/`min`/`median`, looked up from
`statFunctions` by name) is an arbitrary parameter `f : List ℚ → ℚ`; the
protection property holds for every choice.  `Array.prototype.sort` with
comparator `fa - fb` (null coerced to `-Infinity`) is a stable ascending
sort by fitness; it is modelled by a stable insertion sort. -/

namespace Stag

/-- The inputs `update` reads from one species: its id, `last_improved`
generation, `fitness_history`, and current member fitnesses. -/
structure SpeciesState where
  sid : ℤ
  last_improved : ℤ
  fitness_history : List ℚ
  member_fitnesses : List ℚ

/-- One species after the history/`last_improved` refresh at the top of
`update`: null fitness when the species has no members. -/
structure ScoredSpecies where
  sid : ℤ
  last_improved : ℤ
  fitness : Option ℚ

/-- The per-species refresh: compute the statistic over member fitnesses,
bump `last_improved` to the current generation when it beats the best of
`fitness_history` (`-Infinity` when the history is empty). -/
def scoreSpecies (f : List ℚ → ℚ) (generation : ℤ) (s : SpeciesState) :
    ScoredSpecies :=
  if s.member_fitnesses = [] then ⟨s.sid, s.last_improved, none⟩
  else
    let fit := f s.member_fitnesses
    let improved := match s.fitness_history.max? with
      | none => true
      | some prev => decide (fit > prev)
    ⟨s.sid, if improved then generation else s.last_improved, some fit⟩

/-- Comparator order of the sort: `fa - fb < 0` with null as `-Infinity`
(two nulls compare as equal, like the comparator's `NaN` result). -/
def fitLt (a b : Option ℚ) : Bool :=
  match a, b with
  | none, none => false
  | none, some _ => true
  | some _, none => false
  | some x, some y => decide (x < y)

/-- Stable insertion into an ascending list: a new element goes before the
first element not strictly below it, keeping earlier elements first among
ties (JS sorts are stable). -/
def insertAsc (a : ScoredSpecies) : List ScoredSpecies → List ScoredSpecies
  | [] => [a]
  | b :: t => if fitLt b.fitness a.fitness then b :: insertAsc a t else a :: b :: t

/-- Stable ascending sort by fitness (worst to best, nulls lowest). -/
def sortAsc : List ScoredSpecies → List ScoredSpecies
  | [] => []
  | a :: t => insertAsc a (sortAsc t)

/-- The flagging loop of `update` over the sorted species list: a species
is stagnant when `generation - last_improved >= max_stagnation`, unless it
is within the top `species_elitism` tail of the sort or unflagging is
forced because at most `species_elitism` species remain non-stagnant.  The
loop carries the running index and the `num_non_stagnant` counter. -/
def flagLoop (max_stagnation species_elitism generation : ℤ) (total : ℕ) :
    List ScoredSpecies → ℕ → ℤ → List (ℤ × Bool)
  | [], _, _ => []
  | s :: rest, idx, num_non_stagnant =>
    let stagnant_time := generation - s.last_improved
    let is0 : Bool := decide (stagnant_time ≥ max_stagnation)
    let is1 : Bool := if (total : ℤ) - (idx : ℤ) ≤ species_elitism then false else is0
    let is_stagnant : Bool := if num_non_stagnant ≤ species_elitism then false else is1
    (s.sid, is_stagnant) ::
      flagLoop max_stagnation species_elitism generation total rest (idx + 1)
        (if is_stagnant then num_non_stagnant - 1 else num_non_stagnant)

/-- `DefaultStagnation.update`: refresh every species, sort ascending by the
fitness statistic, and flag stagnant species, returning `(speciesId,
isStagnant)` in sorted order. -/
def update (f : List ℚ → ℚ) (max_stagnation species_elitism : ℤ)
    (species_set : List SpeciesState) (generation : ℤ) : List (ℤ × Bool) :=
  let species_data := sortAsc (species_set.map (scoreSpecies f generation))
  flagLoop max_stagnation species_elitism generation species_data.length
    species_data 0 (species_data.length : ℤ)

end Stag

/-! ## Feed-forward phenotype: `FeedForwardNetwork.activate` (nn.js lines
27-49).

JS number values stored in `this.values` are modelled as `Option ℚ`: `none`
stands for `NaN` (and for the `undefined` of a missing map entry, which
becomes `NaN` as soon as it is multiplied by a weight).  The per-node
activation and aggregation functions are arbitrary parameters over that
domain, carried inside each `node_evals` entry. -/

namespace NN

/-- One `node_evals` entry: `[node_key, activation_func, aggregation_func,
bias, response, links]`. -/
structure NodeEval where
  node : ℤ
  act : Option ℚ → Option ℚ
  agg : List (Option ℚ) → Option ℚ
  bias : ℚ
  response : ℚ
  links : List (ℤ × ℚ)

/-- `FeedForwardNetwork`: declared input and output node keys plus the
ordered evaluation plan. -/
structure FFNet where
  input_nodes : List ℤ
  output_nodes : List ℤ
  node_evals : List NodeEval

/-- `this.values.get(k)`, collapsing a missing entry to `none` (JS:
`undefined`, which the subsequent arithmetic turns into `NaN`). -/
def getVal (values : List (ℤ × Option ℚ)) (k : ℤ) : Option ℚ :=
  match Util.getKV values k with
  | none => none
  | some v => v

/-- `this.values.get(inode) * weight`. -/
def jmul (x : Option ℚ) (w : ℚ) : Option ℚ := x.map (fun v => v * w)

/-- `bias + response * s` over the NaN-propagating value domain. -/
def nodeArg (bias response : ℚ) (s : Option ℚ) : Option ℚ :=
  s.map (fun v => bias + response * v)

/-- The values map seeded with the declared inputs. -/
def inputValues (net : FFNet) (inputs : List ℚ) : List (ℤ × Option ℚ) :=
  (net.input_nodes.zip inputs).foldl (fun m p => Util.setKV m p.1 (some p.2)) []

/-- The values map after evaluating every `node_evals` entry in order. -/
def finalValues (net : FFNet) (inputs : List ℚ) : List (ℤ × Option ℚ) :=
  net.node_evals.foldl (fun m ne =>
    let node_inputs := ne.links.map (fun l => jmul (getVal m l.1) l.2)
    Util.setKV m ne.node (ne.act (nodeArg ne.bias ne.response (ne.agg node_inputs))))
    (inputValues net inputs)

/-- `FeedForwardNetwork.activate`: errors when the number of supplied
inputs differs from the number of declared input nodes, otherwise seeds the
inputs, evaluates the plan in order, and reads the declared outputs. -/
def activate (net : FFNet) (inputs : List ℚ) : Except String (List (Option ℚ)) :=
  if inputs.length ≠ net.input_nodes.length then
    .error "Wrong number of inputs."
  else
    .ok (net.output_nodes.map (fun k => getVal (finalValues net inputs) k))

end NN

/-! ## Evolution driver: the body of the generation loop of
`Population.run` (population.js lines 113-186).

Genomes are modelled by their key and optional fitness.  The collaborators
the loop calls through `this` are parameters: the outcome of
`this.reproduction.reproduce(...)` is passed in as the pair (new
population, resulting species count), and `create_new` is modelled
concretely after `DefaultReproduction.create_new` (fresh consecutive keys
from the genome indexer, null fitness).  Speciation does not influence
which branch the loop takes, so the step result carries the population the
next generation would start from. -/

namespace Pop

/-- Driver configuration slice read by the loop body. -/
structure PopConfig where
  no_fitness_termination : Bool
  fitness_criterion : List ℚ → ℚ
  fitness_threshold : ℚ
  reset_on_extinction : Bool
  pop_size : ℕ

/-- Outcome of one pass through the generation loop body. -/
inductive StepResult where
  | missingFitness (key : ℕ)
  | solutionFound
  | completeExtinction
  | next (population : List (ℕ × Option ℚ)) (generation : ℤ)

/-- The best-genome scan: throws (`error` with the offending key) at the
first genome without assigned fitness, otherwise returns the genome with
the strictly highest fitness seen first. -/
def findBest : List (ℕ × Option ℚ) → Option (ℕ × ℚ) → Except ℕ (Option (ℕ × ℚ))
  | [], best => .ok best
  | g :: rest, best =>
    match g.2 with
    | none => .error g.1
    | some f =>
      findBest rest (match best with
        | none => some (g.1, f)
        | some b => if f > b.2 then (g.1, f) else b)

/-- `DefaultReproduction.create_new`: `n` fresh genomes keyed by
consecutive genome-indexer values, fitness unset; returns the new
population and the advanced indexer. -/
def create_new (indexer : ℕ) (n : ℕ) : List (ℕ × Option ℚ) × ℕ :=
  ((List.range n).map (fun j => (indexer + j, (none : Option ℚ))), indexer + n)

/-- One pass through the generation loop body, entered after the external
fitness function has returned: check fitness assignment, check the
termination criterion, adopt the reproduction outcome, and apply the
extinction policy. -/
def generationStep (cfg : PopConfig) (population : List (ℕ × Option ℚ))
    (reproduceResult : List (ℕ × Option ℚ) × ℕ) (indexer : ℕ)
    (generation : ℤ) : StepResult :=
  match findBest population none with
  | .error k => .missingFitness k
  | .ok _ =>
    let fitnesses := population.map (fun g => g.2.getD 0)
    if cfg.no_fitness_termination = false ∧
        cfg.fitness_criterion fitnesses ≥ cfg.fitness_threshold then
      .solutionFound
    else if reproduceResult.2 = 0 then
      if cfg.reset_on_extinction then
        .next (create_new indexer cfg.pop_size).1 (generation + 1)
      else .completeExtinction
    else .next reproduceResult.1 (generation + 1)

end Pop

end NeatVerif

namespace NeatVerif

/-! ## Theorems -/

/-! ### Correctness of the `createsCycle` traversal -/

theorem ccPass_mono (i : ℤ) (cs : List (ℤ × ℤ)) :
    ∀ (v : Finset ℤ) (n : ℕ) (v' : Finset ℤ) (n' : ℕ),
      Graphs.ccPass i cs v n = some (v', n') → v ⊆ v' := by
  induction cs with
  | nil =>
    intro v n v' n' h
    simp only [Graphs.ccPass, Option.some.injEq, Prod.mk.injEq] at h
    exact h.1 ▸ subset_rfl
  | cons c rest ih =>
    intro v n v' n' h
    simp only [Graphs.ccPass] at h
    split at h
    · split at h
      · exact absurd h (by simp)
      · exact (Finset.subset_insert _ _).trans (ih _ _ _ _ h)
    · exact ih _ _ _ _ h

theorem ccPass_n_mono (i : ℤ) (cs : List (ℤ × ℤ)) :
    ∀ (v : Finset ℤ) (n : ℕ) (v' : Finset ℤ) (n' : ℕ),
      Graphs.ccPass i cs v n = some (v', n') → n ≤ n' := by
  induction cs with
  | nil =>
    intro v n v' n' h
    simp only [Graphs.ccPass, Option.some.injEq, Prod.mk.injEq] at h
    omega
  | cons c rest ih =>
    intro v n v' n' h
    simp only [Graphs.ccPass] at h
    split at h
    · split at h
      · exact absurd h (by simp)
      · exact (Nat.le_succ n).trans (ih _ _ _ _ h)
    · exact ih _ _ _ _ h

theorem ccPass_not_mem (i : ℤ) (cs : List (ℤ × ℤ)) :
    ∀ (v : Finset ℤ) (n : ℕ) (v' : Finset ℤ) (n' : ℕ),
      Graphs.ccPass i cs v n = some (v', n') → i ∉ v → i ∉ v' := by
  induction cs with
  | nil =>
    intro v n v' n' h hi
    simp only [Graphs.ccPass, Option.some.injEq, Prod.mk.injEq] at h
    exact h.1 ▸ hi
  | cons c rest ih =>
    intro v n v' n' h hi
    simp only [Graphs.ccPass] at h
    split at h
    · split at h
      · exact absurd h (by simp)
      · next hne =>
        refine ih _ _ _ _ h ?_
        simp only [Finset.mem_insert]
        rintro (rfl | hv)
        · exact hne rfl
        · exact hi hv
    · exact ih _ _ _ _ h hi

theorem ccPass_sub_targets (i : ℤ) (cs : List (ℤ × ℤ)) :
    ∀ (v : Finset ℤ) (n : ℕ) (v' : Finset ℤ) (n' : ℕ),
      Graphs.ccPass i cs v n = some (v', n') →
      v' ⊆ v ∪ (cs.map Prod.snd).toFinset := by
  induction cs with
  | nil =>
    intro v n v' n' h
    simp only [Graphs.ccPass, Option.some.injEq, Prod.mk.injEq] at h
    exact h.1 ▸ Finset.subset_union_left
  | cons c rest ih =>
    intro v n v' n' h
    simp only [Graphs.ccPass] at h
    split at h
    · split at h
      · exact absurd h (by simp)
      · intro x hx
        rcases Finset.mem_union.mp (ih _ _ _ _ h hx) with hx1 | hx2
        · rcases Finset.mem_insert.mp hx1 with rfl | hv
          · simp
          · exact Finset.mem_union_left _ hv
        · apply Finset.mem_union_right
          simp only [List.map_cons, List.toFinset_cons, Finset.mem_insert]
          exact Or.inr (by simpa using hx2)
    · intro x hx
      rcases Finset.mem_union.mp (ih _ _ _ _ h hx) with hx1 | hx2
      · exact Finset.mem_union_left _ hx1
      · apply Finset.mem_union_right
        simp only [List.map_cons, List.toFinset_cons, Finset.mem_insert]
        exact Or.inr (by simpa using hx2)

theorem ccPass_strict (i : ℤ) (cs : List (ℤ × ℤ)) :
    ∀ (v : Finset ℤ) (n : ℕ) (v' : Finset ℤ) (n' : ℕ),
      Graphs.ccPass i cs v n = some (v', n') → n < n' → v ⊂ v' := by
  induction cs with
  | nil =>
    intro v n v' n' h hlt
    simp only [Graphs.ccPass, Option.some.injEq, Prod.mk.injEq] at h
    omega
  | cons c rest ih =>
    intro v n v' n' h hlt
    simp only [Graphs.ccPass] at h
    split at h
    · split at h
      · exact absurd h (by simp)
      · next hcond _ =>
        have hsub : insert c.2 v ⊆ v' := ccPass_mono i rest _ _ _ _ h
        refine (Finset.ssubset_iff_of_subset
          ((Finset.subset_insert _ _).trans hsub)).mpr ?_
        exact ⟨c.2, hsub (Finset.mem_insert_self _ _), hcond.2⟩
    · exact ih _ _ _ _ h hlt

theorem ccPass_zero (i : ℤ) (cs : List (ℤ × ℤ)) :
    ∀ (v : Finset ℤ) (n : ℕ) (v' : Finset ℤ),
      Graphs.ccPass i cs v n = some (v', n) →
      v' = v ∧ ∀ c ∈ cs, c.1 ∈ v → c.2 ∈ v := by
  induction cs with
  | nil =>
    intro v n v' h
    simp only [Graphs.ccPass, Option.some.injEq, Prod.mk.injEq] at h
    exact ⟨h.1.symm, by simp⟩
  | cons c rest ih =>
    intro v n v' h
    simp only [Graphs.ccPass] at h
    split at h
    · split at h
      · exact absurd h (by simp)
      · have := ccPass_n_mono i rest _ _ _ _ h
        omega
    · next hcond =>
      rcases ih _ _ _ h with ⟨hv, hcl⟩
      refine ⟨hv, ?_⟩
      intro d hd hd1
      rcases List.mem_cons.mp hd with rfl | hd2
      · by_contra hd2
        exact hcond ⟨hd1, hd2⟩
      · exact hcl d hd2 hd1

theorem ccPass_none_ex (i : ℤ) (conns : List (ℤ × ℤ)) (cs : List (ℤ × ℤ)) :
    ∀ (v : Finset ℤ) (n : ℕ), (∀ c ∈ cs, c ∈ conns) →
      Graphs.ccPass i cs v n = none →
      ∃ x ∈ v, Relation.TransGen (Graphs.Edge conns) x i := by
  induction cs with
  | nil =>
    intro v n _ h
    simp [Graphs.ccPass] at h
  | cons c rest ih =>
    intro v n hsub h
    simp only [Graphs.ccPass] at h
    split at h
    · next hcond =>
      split at h
      · next heq =>
        refine ⟨c.1, hcond.1, Relation.TransGen.single ?_⟩
        have hc : c ∈ conns := hsub c (List.mem_cons_self c rest)
        show (c.1, i) ∈ conns
        rw [← heq]
        simpa using hc
      · rcases ih _ _ (fun d hd => hsub d (List.mem_cons_of_mem c hd)) h with
          ⟨x, hx, htg⟩
        rcases Finset.mem_insert.mp hx with rfl | hv
        · refine ⟨c.1, hcond.1, Relation.TransGen.head ?_ htg⟩
          have hc : c ∈ conns := hsub c (List.mem_cons_self c rest)
          show (c.1, c.2) ∈ conns
          simpa using hc
        · exact ⟨x, hv, htg⟩
    · exact ih _ _ (fun d hd => hsub d (List.mem_cons_of_mem c hd)) h

theorem ccPass_transfer (i : ℤ) (conns : List (ℤ × ℤ)) (cs : List (ℤ × ℤ)) :
    ∀ (v : Finset ℤ) (n : ℕ) (v' : Finset ℤ) (n' : ℕ),
      (∀ c ∈ cs, c ∈ conns) →
      Graphs.ccPass i cs v n = some (v', n') →
      (∃ x ∈ v', Relation.TransGen (Graphs.Edge conns) x i) →
      ∃ x ∈ v, Relation.TransGen (Graphs.Edge conns) x i := by
  induction cs with
  | nil =>
    intro v n v' n' _ h hex
    simp only [Graphs.ccPass, Option.some.injEq, Prod.mk.injEq] at h
    exact h.1 ▸ hex
  | cons c rest ih =>
    intro v n v' n' hsub h hex
    simp only [Graphs.ccPass] at h
    split at h
    · next hcond =>
      split at h
      · exact absurd h (by simp)
      · rcases ih _ _ _ _ (fun d hd => hsub d (List.mem_cons_of_mem c hd)) h hex
          with ⟨x, hx, htg⟩
        rcases Finset.mem_insert.mp hx with rfl | hv
        · refine ⟨c.1, hcond.1, Relation.TransGen.head ?_ htg⟩
          have hc : c ∈ conns := hsub c (List.mem_cons_self c rest)
          show (c.1, c.2) ∈ conns
          simpa using hc
        · exact ⟨x, hv, htg⟩
    · exact ih _ _ _ _ (fun d hd => hsub d (List.mem_cons_of_mem c hd)) h hex

theorem closed_reach (conns : List (ℤ × ℤ)) (v : Finset ℤ)
    (hclosed : ∀ c ∈ conns, c.1 ∈ v → c.2 ∈ v) {x y : ℤ} (hx : x ∈ v)
    (h : Relation.ReflTransGen (Graphs.Edge conns) x y) : y ∈ v := by
  induction h with
  | refl => exact hx
  | tail _ hstep ihy =>
    next b c _ =>
    exact hclosed (b, c) hstep ihy

theorem ccLoop_iff (i : ℤ) (conns : List (ℤ × ℤ)) :
    ∀ (fuel : ℕ) (v : Finset ℤ), i ∉ v →
      ((conns.map Prod.snd).toFinset \ v).card < fuel →
      (Graphs.ccLoop i conns fuel v = true ↔
        ∃ x ∈ v, Relation.TransGen (Graphs.Edge conns) x i) := by
  intro fuel
  induction fuel with
  | zero => intro v _ hcard; omega
  | succ fuel ih =>
    intro v hi hcard
    simp only [Graphs.ccLoop]
    rcases hp : Graphs.ccPass i conns v 0 with - | vn
    · show (true = true) ↔ _
      exact iff_of_true rfl (ccPass_none_ex i conns conns v 0 (fun c hc => hc) hp)
    · rcases vn with ⟨v', n'⟩
      show (if n' = 0 then false else Graphs.ccLoop i conns fuel v') = true ↔ _
      by_cases hn : n' = 0
      · subst hn
        rcases ccPass_zero i conns v 0 v' hp with ⟨rfl, hclosed⟩
        rw [if_pos rfl]
        refine iff_of_false (by simp) ?_
        rintro ⟨x, hx, htg⟩
        exact hi (closed_reach conns v' hclosed hx htg.to_reflTransGen)
      · have hlt : 0 < n' := Nat.pos_of_ne_zero hn
        have hss : v ⊂ v' := ccPass_strict i conns v 0 v' n' hp hlt
        have hsubt := ccPass_sub_targets i conns v 0 v' n' hp
        have hi2 : i ∉ v' := ccPass_not_mem i conns v 0 v' n' hp hi
        have hcard2 : ((conns.map Prod.snd).toFinset \ v').card < fuel := by
          have hstrict : (conns.map Prod.snd).toFinset \ v' ⊂
              (conns.map Prod.snd).toFinset \ v := by
            rcases Finset.exists_of_ssubset hss with ⟨t, ht', ht⟩
            have htt : t ∈ (conns.map Prod.snd).toFinset := by
              rcases Finset.mem_union.mp (hsubt ht') with h1 | h2
              · exact absurd h1 ht
              · exact h2
            refine Finset.ssubset_iff_of_subset ?_ |>.mpr ⟨t, ?_, ?_⟩
            · exact Finset.sdiff_subset_sdiff subset_rfl hss.subset
            · exact Finset.mem_sdiff.mpr ⟨htt, ht⟩
            · simp [ht']
          have := Finset.card_lt_card hstrict
          omega
        rw [if_neg hn, ih v' hi2 hcard2]
        constructor
        · exact fun hex => ccPass_transfer i conns conns v 0 v' n'
            (fun c hc => hc) hp hex
        · rintro ⟨x, hx, htg⟩
          exact ⟨x, hss.subset hx, htg⟩

/-- General characterization of `createsCycle`, shared by later theorems. -/
theorem createsCycle_iff (conns : List (ℤ × ℤ)) (i o : ℤ) :
    Graphs.createsCycle conns (i, o) = true ↔
      i = o ∨ Relation.TransGen (Graphs.Edge conns) o i := by
  unfold Graphs.createsCycle
  dsimp only
  by_cases h : i = o
  · simp [h]
  · rw [if_neg h]
    have hcard : ((conns.map Prod.snd).toFinset \ {o}).card < conns.length + 1 := by
      have h1 : ((conns.map Prod.snd).toFinset \ {o}).card ≤
          (conns.map Prod.snd).toFinset.card :=
        Finset.card_le_card (Finset.sdiff_subset)
      have h2 : (conns.map Prod.snd).toFinset.card ≤ (conns.map Prod.snd).length :=
        (conns.map Prod.snd).toFinset_card_le
      simp only [List.length_map] at h2
      omega
    rw [ccLoop_iff i conns (conns.length + 1) {o} (by simp [h]) hcard]
    constructor
    · rintro ⟨x, hx, htg⟩
      rw [Finset.mem_singleton] at hx
      exact Or.inr (hx ▸ htg)
    · rintro (rfl | htg)
      · exact absurd rfl h
      · exact ⟨o, Finset.mem_singleton_self o, htg⟩

/-- Claim C5: for every edge list and candidate pair `(i, o)`,
`createsCycle(edges, (i, o))` returns true if and only if `i == o` or there
is a directed path from `o` to `i` through the edges (so that appending
`(i, o)` would close a directed cycle); in particular it returns true for
every self-loop. -/
theorem createsCycle_correct (edges : List (ℤ × ℤ)) (i o : ℤ) :
    Graphs.createsCycle edges (i, o) = true ↔
      i = o ∨ Relation.TransGen (Graphs.Edge edges) o i :=
  createsCycle_iff edges i o

/-! ### requiredForOutput and feedForwardLayers -/

theorem rfoLoop_not_input (conns : List (ℤ × ℤ)) (inputSet : Finset ℤ) :
    ∀ (fuel : ℕ) (required s : Finset ℤ),
      (∀ x ∈ required, x ∉ inputSet) →
      ∀ x ∈ Graphs.rfoLoop conns inputSet fuel required s, x ∉ inputSet := by
  intro fuel
  induction fuel with
  | zero =>
    intro req s h x hx
    exact h x (by simpa [Graphs.rfoLoop] using hx)
  | succ fuel ih =>
    intro req s h x hx
    simp only [Graphs.rfoLoop] at hx
    split at hx
    · exact h x hx
    · split at hx
      · exact h x hx
      · refine ih _ _ ?_ x hx
        intro y hy
        rcases Finset.mem_union.mp hy with h1 | h2
        · exact h y h1
        · exact (Finset.mem_filter.mp h2).2

/-- Claim C9: `requiredForOutput(inputs, outputs, connections)` throws if
and only if some node identifier occurs in both `inputs` and `outputs`;
when the two sets are disjoint it returns normally with a set of required
nodes that excludes every declared input. -/
theorem requiredForOutput_spec (inputs outputs : List ℤ)
    (connections : List (ℤ × ℤ)) :
    ((∃ msg, Graphs.requiredForOutput inputs outputs connections = .error msg) ↔
      ∃ id, id ∈ inputs ∧ id ∈ outputs) ∧
    ∀ r, Graphs.requiredForOutput inputs outputs connections = .ok r →
      ∀ id ∈ inputs, id ∉ r := by
  unfold Graphs.requiredForOutput
  constructor
  · by_cases h : ∃ id ∈ inputs.toFinset, id ∈ outputs.toFinset
    · rw [if_pos h]
      refine iff_of_true ⟨_, rfl⟩ ?_
      simpa using h
    · rw [if_neg h]
      refine iff_of_false ?_ ?_
      · rintro ⟨msg, hmsg⟩
        exact absurd hmsg (by simp)
      · intro hex
        exact h (by simpa using hex)
  · intro r hr
    by_cases h : ∃ id ∈ inputs.toFinset, id ∈ outputs.toFinset
    · rw [if_pos h] at hr
      exact absurd hr (by simp)
    · rw [if_neg h] at hr
      simp only [Except.ok.injEq] at hr
      intro id hid hidr
      push_neg at h
      have hinit : ∀ x ∈ outputs.toFinset, x ∉ inputs.toFinset := by
        intro x hx hx2
        exact h x hx2 hx
      have := rfoLoop_not_input connections inputs.toFinset
        (connections.length + 1) outputs.toFinset outputs.toFinset hinit id
        (hr ▸ hidr)
      exact this (List.mem_toFinset.mpr hid)

/-- Witness for `requiredForOutput_spec` at a concrete input. -/
theorem requiredForOutput_spec_witness :
    Graphs.requiredForOutput [-1] [0] [] = .ok {0} ∧ (-1 : ℤ) ∉ ({0} : Finset ℤ) :=
  ⟨by decide, (requiredForOutput_spec [-1] [0] []).2 {0} (by decide) (-1) (by decide)⟩

theorem fflLoop_subset_required (conns : List (ℤ × ℤ)) (required : Finset ℤ) :
    ∀ (fuel : ℕ) (s : Finset ℤ),
      ∀ x ∈ Graphs.layersUnion (Graphs.fflLoop conns required fuel s),
        x ∈ required := by
  intro fuel
  induction fuel with
  | zero =>
    intro s x hx
    simp [Graphs.fflLoop, Graphs.layersUnion] at hx
  | succ fuel ih =>
    intro s x hx
    simp only [Graphs.fflLoop] at hx
    split at hx
    · simp [Graphs.layersUnion] at hx
    · rw [show ∀ (a : Finset ℤ) (l : List (Finset ℤ)),
        Graphs.layersUnion (a :: l) = a ∪ Graphs.layersUnion l from
        fun a l => rfl] at hx
      rcases Finset.mem_union.mp hx with h1 | h2
      · exact (Finset.mem_filter.mp h1).2.1
      · exact ih _ x h2

theorem fflLoop_layered (conns : List (ℤ × ℤ)) (required : Finset ℤ) :
    ∀ (fuel : ℕ) (s : Finset ℤ),
      Graphs.LayeredFrom conns s (Graphs.fflLoop conns required fuel s) := by
  intro fuel
  induction fuel with
  | zero =>
    intro s
    simp [Graphs.fflLoop, Graphs.LayeredFrom]
  | succ fuel ih =>
    intro s
    simp only [Graphs.fflLoop]
    split
    · simp [Graphs.LayeredFrom]
    · refine ⟨?_, ih _⟩
      intro n hn c hc hc2
      have hready := (Finset.mem_filter.mp hn).2.2
      unfold Graphs.allInputsReady at hready
      rw [List.all_eq_true] at hready
      have hcf : c ∈ conns.filter (fun d => decide (d.2 = n)) := by
        rw [List.mem_filter]
        exact ⟨hc, by simpa using hc2⟩
      simpa using hready c hcf

theorem layeredFrom_sources (conns : List (ℤ × ℤ)) :
    ∀ (L : List (Finset ℤ)) (s : Finset ℤ), Graphs.LayeredFrom conns s L →
      ∀ (k : ℕ) (hk : k < L.length), ∀ n ∈ L.get ⟨k, hk⟩,
      ∀ c ∈ conns, c.2 = n → c.1 ∈ s ∪ Graphs.layersUnion (L.take k) := by
  intro L
  induction L with
  | nil =>
    intro s _ k hk
    simp at hk
  | cons L0 rest ih =>
    intro s hlay k hk n hn c hc hc2
    rcases hlay with ⟨h0, hrest⟩
    match k with
    | 0 =>
      simp only [List.get] at hn
      simp only [List.take_zero]
      exact Finset.mem_union_left _ (h0 n hn c hc hc2)
    | k + 1 =>
      simp only [List.get] at hn
      simp only [List.length_cons, Nat.add_lt_add_iff_right] at hk
      have := ih (s ∪ L0) hrest k hk n hn c hc hc2
      rw [List.take_succ_cons]
      rw [show ∀ (a : Finset ℤ) (l : List (Finset ℤ)),
        Graphs.layersUnion (a :: l) = a ∪ Graphs.layersUnion l from
        fun a l => rfl]
      rw [← Finset.union_assoc]
      exact this

/-- Claim C2 (amended): `feedForwardLayers(inputs, outputs, edges)` never
places a node in a layer earlier than all of its required predecessors
(every edge source feeding a layered node lies in `inputs` or an earlier
layer), and the union of all emitted layers together with `inputs` is a
subset of `requiredForOutput(inputs, outputs, edges) ∪ inputs` (the union
can be a proper subset: a required node that is not forward-reachable from
the inputs, e.g. an output with no incoming connections, appears in no
layer). -/
theorem feedForwardLayers_spec (inputs outputs : List ℤ)
    (connections : List (ℤ × ℤ)) (required : Finset ℤ)
    (layers : List (Finset ℤ))
    (hreq : Graphs.requiredForOutput inputs outputs connections = .ok required)
    (hlay : Graphs.feedForwardLayers inputs outputs connections = .ok layers) :
    (∀ (k : ℕ) (hk : k < layers.length), ∀ n ∈ layers.get ⟨k, hk⟩,
      ∀ c ∈ connections, c.2 = n →
        c.1 ∈ inputs.toFinset ∪ Graphs.layersUnion (layers.take k)) ∧
    Graphs.layersUnion layers ∪ inputs.toFinset ⊆ required ∪ inputs.toFinset := by
  unfold Graphs.feedForwardLayers at hlay
  rw [hreq] at hlay
  simp only [Except.map, Except.ok.injEq] at hlay
  subst hlay
  constructor
  · intro k hk n hn c hc hc2
    exact layeredFrom_sources connections _ inputs.toFinset
      (fflLoop_layered connections required (connections.length + 1)
        inputs.toFinset) k hk n hn c hc hc2
  · intro x hx
    rcases Finset.mem_union.mp hx with h1 | h2
    · exact Finset.mem_union_left _
        (fflLoop_subset_required connections required (connections.length + 1)
          inputs.toFinset x h1)
    · exact Finset.mem_union_right _ h2

/-- Witness for `feedForwardLayers_spec` at a concrete input. -/
theorem feedForwardLayers_spec_witness :
    Graphs.layersUnion [({0} : Finset ℤ)] ∪ ([-1] : List ℤ).toFinset ⊆
      ({0} : Finset ℤ) ∪ ([-1] : List ℤ).toFinset :=
  (feedForwardLayers_spec [-1] [0] [(-1, 0)] {0} [{0}] (by decide) (by decide)).2

/-- Claim C2 (corrected), counterexample to the union equality: with
`inputs = [-1]`, `outputs = [0]` and no edges, the required set is `{0}`
but no layer is ever emitted, so the union of all layers plus inputs is
`{-1}`, a proper subset of `{0} ∪ {-1}`. -/
theorem feedForwardLayers_union_counterexample :
    Graphs.requiredForOutput [-1] [0] [] = .ok {0} ∧
    Graphs.feedForwardLayers [-1] [0] [] = .ok [] ∧
    Graphs.layersUnion [] ∪ ([-1] : List ℤ).toFinset ≠
      ({0} : Finset ℤ) ∪ ([-1] : List ℤ).toFinset :=
  ⟨by decide, by decide, by decide⟩

/-- Claim C1 (corrected), counterexample: with adjusted fitnesses `[1/2, 1/2]`,
previous sizes `[1, 1]`, `pop_size = 3` and `min_species_size = 1` we have
`pop_size ≥ 2 * min_species_size`, but the returned spawn amounts are `[2, 2]`,
whose sum `4` differs from `pop_size = 3`. -/
theorem compute_spawn_sum_counterexample :
    (3 : ℚ) ≥ 2 * 1 ∧
      Repro.compute_spawn [1/2, 1/2] [1, 1] 3 1 = [2, 2] ∧
      (Repro.compute_spawn [1/2, 1/2] [1, 1] 3 1).sum ≠ 3 := by
  refine ⟨by norm_num, ?_, ?_⟩ <;>
    norm_num [Repro.compute_spawn, Repro.spawnBlend, jround, List.zip, List.zipWith, List.sum]

/-- Claim C1 (amended): for every call to `DefaultReproduction.compute_spawn`
with per-species adjusted fitnesses, previous sizes, target population size
`pop_size`, and minimum species size `min_species_size`, when
`pop_size >= (number of species) * min_species_size`, every returned spawn
amount is `>= min_species_size` (the returned amounts need not sum to
`pop_size`). -/
theorem compute_spawn_ge_min_species_size
    (adjusted_fitnesses previous_sizes : List ℚ) (pop_size min_species_size : ℚ)
    (hpop : pop_size ≥ (adjusted_fitnesses.length : ℚ) * min_species_size) :
    ∀ x ∈ Repro.compute_spawn adjusted_fitnesses previous_sizes pop_size
        min_species_size, min_species_size ≤ x := by
  intro x hx
  unfold Repro.compute_spawn at hx
  dsimp only at hx
  split at hx
  · rcases List.mem_map.mp hx with ⟨a, -, rfl⟩
    exact le_rfl
  · rcases List.mem_map.mp hx with ⟨a, -, rfl⟩
    exact le_max_left _ _

/-- Witness for `compute_spawn_ge_min_species_size` at a concrete input. -/
theorem compute_spawn_ge_min_species_size_witness :
    (1 : ℚ) ≤ (Repro.compute_spawn [1/2, 1/2] [1, 1] 3 1).headD 0 := by
  apply compute_spawn_ge_min_species_size [1/2, 1/2] [1, 1] 3 1 (by norm_num)
  norm_num [Repro.compute_spawn, Repro.spawnBlend, jround, List.zip, List.zipWith]

/-- Claim C7: for every genome `g` and every genome configuration,
`g.distance(g, config)` equals 0: the genome shares every key with itself, so
there are no disjoint genes and every per-key gene distance is zero. -/
theorem distance_self (g : Gen.Genome) (config : Gen.GenomeConfig) :
    Gen.distance g g config = 0 := by
  unfold Gen.distance
  dsimp only
  rw [Finset.union_self, Finset.union_self]
  have hfilter : ∀ {α : Type} [DecidableEq α] (K : Finset α),
      K.filter (fun k => ¬(k ∈ K ∧ k ∈ K)) = ∅ := by
    intro α _ K
    refine Finset.filter_eq_empty_iff.mpr ?_
    intro k hk
    simp [hk]
  have hnsum :
      ((g.nodes.map Prod.fst).toFinset.filter (fun k =>
          k ∈ (g.nodes.map Prod.fst).toFinset ∧
            k ∈ (g.nodes.map Prod.fst).toFinset)).sum (fun k =>
        Gen.genePairDist (fun a b => Gen.nodeDistance a b config)
          (Gen.lookupNode g k) (Gen.lookupNode g k)) = 0 := by
    refine Finset.sum_eq_zero ?_
    intro k _
    rcases h : Gen.lookupNode g k with - | a
    · rfl
    · simp [Gen.genePairDist, Gen.nodeDistance]
  have hcsum :
      ((g.connections.map Prod.fst).toFinset.filter (fun k =>
          k ∈ (g.connections.map Prod.fst).toFinset ∧
            k ∈ (g.connections.map Prod.fst).toFinset)).sum (fun k =>
        Gen.genePairDist (fun a b => Gen.connDistance a b config)
          (Gen.lookupConn g k) (Gen.lookupConn g k)) = 0 := by
    refine Finset.sum_eq_zero ?_
    intro k _
    rcases h : Gen.lookupConn g k with - | a
    · rfl
    · simp [Gen.genePairDist, Gen.connDistance]
  rw [hnsum, hcsum, hfilter, hfilter]
  norm_num

/-! ### Stagnation -/

theorem flagLoop_length (max_stagnation species_elitism generation : ℤ)
    (total : ℕ) :
    ∀ (l : List Stag.ScoredSpecies) (idx : ℕ) (nns : ℤ),
      (Stag.flagLoop max_stagnation species_elitism generation total l idx
        nns).length = l.length := by
  intro l
  induction l with
  | nil => intro idx nns; rfl
  | cons s rest ih =>
    intro idx nns
    simp only [Stag.flagLoop, List.length_cons]
    rw [ih]

theorem flagLoop_top_k (max_stagnation species_elitism generation : ℤ)
    (total : ℕ) :
    ∀ (l : List Stag.ScoredSpecies) (idx : ℕ) (nns : ℤ) (j : ℕ), j < l.length →
      (total : ℤ) - ((idx : ℤ) + (j : ℤ)) ≤ species_elitism →
      ((Stag.flagLoop max_stagnation species_elitism generation total l idx
        nns).getD j (0, true)).2 = false := by
  intro l
  induction l with
  | nil =>
    intro idx nns j hlt _
    simp at hlt
  | cons s rest ih =>
    intro idx nns j hlt hj
    match j with
    | 0 =>
      simp only [Stag.flagLoop, List.getD_cons_zero]
      have h1 : (total : ℤ) - (idx : ℤ) ≤ species_elitism := by push_cast at hj; omega
      rw [if_pos h1]
      split <;> rfl
    | j + 1 =>
      simp only [Stag.flagLoop, List.getD_cons_succ]
      apply ih
      · simpa using hlt
      · push_cast at hj ⊢
        omega

/-- Claim C3: for every species map and generation number,
`DefaultStagnation.update` never flags as stagnant any species among the
top `species_elitism` of its fitness-sorted order (the final
`species_elitism` entries of the returned list, which is sorted ascending
by the configured species-fitness statistic), no matter how many
generations have passed since those species last improved, and for every
choice of statistic `f`. -/
theorem stagnation_protects_top_k (f : List ℚ → ℚ)
    (max_stagnation species_elitism : ℤ) (species_set : List Stag.SpeciesState)
    (generation : ℤ) (j : ℕ)
    (hj : j < (Stag.update f max_stagnation species_elitism species_set
      generation).length)
    (htop : ((Stag.update f max_stagnation species_elitism species_set
      generation).length : ℤ) - (j : ℤ) ≤ species_elitism) :
    ((Stag.update f max_stagnation species_elitism species_set
      generation).getD j (0, true)).2 = false := by
  have hlen := flagLoop_length max_stagnation species_elitism generation
    (Stag.sortAsc (species_set.map (Stag.scoreSpecies f generation))).length
    (Stag.sortAsc (species_set.map (Stag.scoreSpecies f generation))) 0
    ((Stag.sortAsc (species_set.map (Stag.scoreSpecies f generation))).length : ℤ)
  unfold Stag.update at htop hj ⊢
  dsimp only at htop hj ⊢
  rw [hlen] at htop hj
  apply flagLoop_top_k
  · exact hj
  · push_cast at htop ⊢
    omega

/-- Witness for `stagnation_protects_top_k`: a single species that last
improved 10 generations ago with `max_stagnation = 3` and
`species_elitism = 1` is protected. -/
theorem stagnation_protects_top_k_witness :
    ((Stag.update (fun l => l.headD 0) 3 1 [⟨1, 0, [5], [1]⟩] 10).getD 0
      (0, true)).2 = false :=
  stagnation_protects_top_k (fun l => l.headD 0) 3 1 [⟨1, 0, [5], [1]⟩] 10 0
    (by decide) (by decide)

/-! ### Feed-forward network activation -/

/-- Claim C10: `FeedForwardNetwork.activate(inputs)` throws if and only if
the length of the inputs array differs from the number of declared input
nodes; with a matching length it returns one value per declared output
node, in the declared output order (the final value of output node `k` read
from the evaluated values map). -/
theorem activate_spec (net : NN.FFNet) (inputs : List ℚ) :
    ((∃ msg, NN.activate net inputs = .error msg) ↔
      inputs.length ≠ net.input_nodes.length) ∧
    ∀ out, NN.activate net inputs = .ok out →
      out.length = net.output_nodes.length ∧
      out = net.output_nodes.map (fun k => NN.getVal (NN.finalValues net inputs) k) := by
  unfold NN.activate
  by_cases h : inputs.length = net.input_nodes.length
  · rw [if_neg (by simpa using h)]
    constructor
    · refine iff_of_false ?_ (by simpa using h)
      rintro ⟨msg, hmsg⟩
      exact absurd hmsg (by simp)
    · intro out hout
      simp only [Except.ok.injEq] at hout
      subst hout
      exact ⟨by simp, rfl⟩
  · rw [if_pos h]
    refine ⟨iff_of_true ⟨_, rfl⟩ h, ?_⟩
    intro out hout
    exact absurd hout (by simp)

/-- Witness for `activate_spec`: a one-input one-output identity network. -/
theorem activate_spec_witness :
    [some (2 : ℚ)].length =
      (NN.FFNet.mk [-1] [0] [⟨0, fun x => x, fun l => l.headD none, 0, 1,
        [(-1, 1)]⟩]).output_nodes.length ∧
    [some (2 : ℚ)] =
      (NN.FFNet.mk [-1] [0] [⟨0, fun x => x, fun l => l.headD none, 0, 1,
        [(-1, 1)]⟩]).output_nodes.map (fun k =>
          NN.getVal (NN.finalValues (NN.FFNet.mk [-1] [0]
            [⟨0, fun x => x, fun l => l.headD none, 0, 1, [(-1, 1)]⟩]) [2]) k) :=
  (activate_spec (NN.FFNet.mk [-1] [0] [⟨0, fun x => x, fun l => l.headD none,
    0, 1, [(-1, 1)]⟩]) [2]).2 [some 2] (by
      norm_num [NN.activate, NN.finalValues, NN.inputValues, NN.getVal,
        NN.jmul, NN.nodeArg, Util.setKV, Util.getKV, List.zip, List.zipWith])

/-! ### Evolution driver extinction policy -/

theorem findBest_ok (population : List (ℕ × Option ℚ)) :
    ∀ (acc : Option (ℕ × ℚ)), (∀ g ∈ population, g.2.isSome = true) →
      ∃ b, Pop.findBest population acc = .ok b := by
  induction population with
  | nil => intro acc _; exact ⟨acc, rfl⟩
  | cons g rest ih =>
    intro acc h
    rcases hg : g.2 with - | f
    · have := h g (List.mem_cons_self g rest)
      rw [hg] at this
      simp at this
    · simp only [Pop.findBest, hg]
      exact ih _ (fun d hd => h d (List.mem_cons_of_mem g hd))

/-- Claim C6: in the generation loop, when every genome has an assigned
fitness, the termination criterion does not fire, and the species
collection is empty immediately after reproduction, the step replaces the
population by a fresh randomly created population of `pop_size` genomes
when `reset_on_extinction` is configured, and otherwise raises
`CompleteExtinctionError`, halting the run. -/
theorem extinction_policy (cfg : Pop.PopConfig)
    (population : List (ℕ × Option ℚ))
    (reproduceResult : List (ℕ × Option ℚ) × ℕ) (indexer : ℕ) (generation : ℤ)
    (hfit : ∀ g ∈ population, g.2.isSome = true)
    (hterm : cfg.no_fitness_termination = true ∨
      cfg.fitness_criterion (population.map (fun g => g.2.getD 0)) <
        cfg.fitness_threshold)
    (hext : reproduceResult.2 = 0) :
    (cfg.reset_on_extinction = true →
      Pop.generationStep cfg population reproduceResult indexer generation =
        .next (Pop.create_new indexer cfg.pop_size).1 (generation + 1) ∧
      (Pop.create_new indexer cfg.pop_size).1.length = cfg.pop_size) ∧
    (cfg.reset_on_extinction = false →
      Pop.generationStep cfg population reproduceResult indexer generation =
        .completeExtinction) := by
  obtain ⟨b, hb⟩ := findBest_ok population none hfit
  unfold Pop.generationStep
  rw [hb]
  dsimp only
  have hcond : ¬(cfg.no_fitness_termination = false ∧
      cfg.fitness_criterion (population.map fun g => g.2.getD 0) ≥
        cfg.fitness_threshold) := by
    rcases hterm with h | h
    · rintro ⟨h1, -⟩
      rw [h] at h1
      exact Bool.noConfusion h1
    · rintro ⟨-, h2⟩
      exact absurd h2 (not_le.mpr h)
  rw [if_neg hcond, if_pos hext]
  constructor
  · intro hr
    rw [if_pos hr]
    exact ⟨rfl, by simp [Pop.create_new]⟩
  · intro hr
    rw [if_neg (by simp [hr])]

/-- Witness for `extinction_policy`: extinction with reset configured. -/
theorem extinction_policy_witness :
    Pop.generationStep ⟨true, fun _ => 0, 0, true, 2⟩ [(1, some 1)] ([], 0) 5 0 =
      .next (Pop.create_new 5 2).1 1 ∧
    (Pop.create_new 5 2).1.length = 2 :=
  (extinction_policy ⟨true, fun _ => 0, 0, true, 2⟩ [(1, some 1)] ([], 0) 5 0
    (by decide) (Or.inl rfl) rfl).1 rfl

/-! ### Reproduction population-size bound -/

theorem setKV_length {κ α : Type} [DecidableEq κ] (m : List (κ × α)) (k : κ)
    (v : α) :
    (Util.setKV m k v).length = m.length ∨
      (Util.setKV m k v).length = m.length + 1 := by
  unfold Util.setKV
  split
  · left; simp
  · right; simp

theorem eliteLoop_length (pop_size : ℕ) :
    ∀ (l newpop : List (ℕ × ℚ)) (spawn : ℚ), newpop.length ≤ pop_size →
      (Repro.eliteLoop pop_size l newpop spawn).1.length ≤ pop_size := by
  intro l
  induction l with
  | nil => intro newpop spawn h; exact h
  | cons m rest ih =>
    intro newpop spawn h
    simp only [Repro.eliteLoop]
    split
    · next hlt =>
      apply ih
      rcases setKV_length newpop m.1 m.2 with h1 | h1 <;> omega
    · exact ih _ _ h

theorem offspringLoop_length (pop_size : ℕ) (childVal : ℕ → ℕ → ℕ → ℚ)
    (pick : ℕ → ℕ) (parents : List (ℕ × ℚ)) :
    ∀ (fuel : ℕ) (newpop : List (ℕ × ℚ)) (indexer pc : ℕ),
      newpop.length ≤ pop_size →
      (Repro.offspringLoop pop_size childVal pick parents fuel newpop indexer
        pc).1.length ≤ pop_size := by
  intro fuel
  induction fuel with
  | zero => intro newpop indexer pc h; exact h
  | succ fuel ih =>
    intro newpop indexer pc h
    simp only [Repro.offspringLoop]
    split
    · exact h
    · next hge =>
      apply ih
      rcases setKV_length newpop indexer
        (childVal indexer (parents.getD (pick pc % parents.length) (0, 0)).1
          (parents.getD (pick (pc + 1) % parents.length) (0, 0)).1) with h1 | h1 <;>
        omega

theorem speciesLoop_length (cfg : Repro.RConfig) (pop_size : ℕ)
    (childVal : ℕ → ℕ → ℕ → ℚ) (pick : ℕ → ℕ) :
    ∀ (pairs : List (Repro.RSpecies × ℚ)) (newpop : List (ℕ × ℚ))
      (indexer pc : ℕ), newpop.length ≤ pop_size →
      (Repro.speciesLoop cfg pop_size childVal pick pairs newpop indexer
        pc).length ≤ pop_size := by
  intro pairs
  induction pairs with
  | nil => intro newpop _ _ h; exact h
  | cons p rest ih =>
    intro newpop indexer pc h
    rcases p with ⟨s, amt⟩
    simp only [Repro.speciesLoop]
    split
    · exact ih _ _ _ h
    · split
      · exact ih _ _ _ (eliteLoop_length pop_size _ _ _ h)
      · exact ih _ _ _ (offspringLoop_length pop_size childVal pick _ _ _ _ _
          (eliteLoop_length pop_size _ _ _ h))

/-! ### Acyclicity preservation of structural mutations -/

theorem transGen_add_edge {R : ℤ → ℤ → Prop} {i o a b : ℤ}
    (h : Relation.TransGen (fun x y => R x y ∨ (x = i ∧ y = o)) a b) :
    Relation.TransGen R a b ∨
      (Relation.ReflTransGen R a i ∧ Relation.ReflTransGen R o b) := by
  induction h with
  | single hs =>
    rcases hs with hs | ⟨rfl, rfl⟩
    · exact Or.inl (Relation.TransGen.single hs)
    · exact Or.inr ⟨Relation.ReflTransGen.refl, Relation.ReflTransGen.refl⟩
  | tail _ hs ih =>
    rcases hs with hs | ⟨rfl, rfl⟩
    · rcases ih with h1 | ⟨h1, h2⟩
      · exact Or.inl (h1.tail hs)
      · exact Or.inr ⟨h1, h2.tail hs⟩
    · rcases ih with h1 | ⟨h1, h2⟩
      · exact Or.inr ⟨h1.to_reflTransGen, Relation.ReflTransGen.refl⟩
      · exact Or.inr ⟨h1, Relation.ReflTransGen.refl⟩

theorem acyclic_add_edge {R : ℤ → ℤ → Prop} {i o : ℤ}
    (hac : ∀ x, ¬ Relation.TransGen R x x)
    (hno : ¬ Relation.ReflTransGen R o i) :
    ∀ x, ¬ Relation.TransGen (fun a b => R a b ∨ (a = i ∧ b = o)) x x := by
  intro x hx
  rcases transGen_add_edge hx with h | ⟨h1, h2⟩
  · exact hac x h
  · exact hno (h2.trans h1)

theorem reflTransGen_from_fresh {R : ℤ → ℤ → Prop} {n b : ℤ}
    (hfresh : ∀ c, ¬ R n c) (h : Relation.ReflTransGen R n b) : b = n := by
  rcases h.cases_head with heq | ⟨c, hc, -⟩
  · exact heq.symm
  · exact absurd hc (hfresh c)

/-- Splitting the edge `(i, o)` through a fresh node `n` (no edge touches
`n`) keeps the graph acyclic. -/
theorem acyclic_split {R : ℤ → ℤ → Prop} {i o n : ℤ}
    (hac : ∀ x, ¬ Relation.TransGen R x x) (hio : R i o)
    (hfresh_out : ∀ c, ¬ R n c) (hfresh_in : ∀ c, ¬ R c n)
    (hni : n ≠ i) (hno : n ≠ o) :
    ∀ x, ¬ Relation.TransGen
      (fun a b => (R a b ∨ (a = i ∧ b = n)) ∨ (a = n ∧ b = o)) x x := by
  have hac1 : ∀ x, ¬ Relation.TransGen
      (fun a b => R a b ∨ (a = i ∧ b = n)) x x := by
    apply acyclic_add_edge hac
    intro h
    exact hni (reflTransGen_from_fresh hfresh_out h).symm
  apply acyclic_add_edge hac1
  intro h
  rcases h.cases_tail with heq | ⟨c, hoc, hcn⟩
  · exact hno heq
  · rcases hcn with hcn | ⟨heqc, -⟩
    · exact hfresh_in c hcn
    · rw [heqc] at hoc
      rcases Relation.reflTransGen_iff_eq_or_transGen.mp hoc with heq2 | htg
      · exact hac o (Relation.TransGen.single (by rwa [heq2] at hio))
      · rcases transGen_add_edge htg with h1 | ⟨-, h2⟩
        · exact hac i (Relation.TransGen.head hio h1)
        · exact hni (reflTransGen_from_fresh hfresh_out h2).symm

theorem acyclic_iff_rel {E : List (ℤ × ℤ)} {R : ℤ → ℤ → Prop}
    (h : ∀ a b, Graphs.Edge E a b ↔ R a b)
    (hac : ∀ x, ¬ Relation.TransGen R x x) : Gen.Acyclic E :=
  fun x hx => hac x (Relation.TransGen.mono (fun a b hab => (h a b).mp hab) hx)

theorem acyclic_enabled_of_connKeys {g : Gen.Genome}
    (h : Gen.Acyclic (Gen.connKeys g)) : Gen.Acyclic (Gen.enabledKeys g) := by
  intro x hx
  refine h x (Relation.TransGen.mono ?_ hx)
  intro a b hab
  unfold Graphs.Edge at hab ⊢
  unfold Gen.enabledKeys at hab
  unfold Gen.connKeys
  rcases List.mem_map.mp hab with ⟨p, hp, hpe⟩
  exact List.mem_map.mpr ⟨p, List.mem_of_mem_filter hp, hpe⟩

theorem setKV_absent {κ α : Type} [DecidableEq κ] (m : List (κ × α)) (k : κ)
    (v : α) (h : ∀ p ∈ m, p.1 ≠ k) : Util.setKV m k v = m ++ [(k, v)] := by
  unfold Util.setKV
  have hf : m.find? (fun p => decide (p.1 = k)) = none :=
    List.find?_eq_none.mpr (fun p hp => by simpa using h p hp)
  rw [hf]
  simp

theorem edge_append_iff (E : List (ℤ × ℤ)) (k : ℤ × ℤ) (a b : ℤ) :
    Graphs.Edge (E ++ [k]) a b ↔ Graphs.Edge E a b ∨ (a = k.1 ∧ b = k.2) := by
  unfold Graphs.Edge
  simp only [List.mem_append, List.mem_singleton, Prod.ext_iff]

theorem lookupConn_none_keys {g : Gen.Genome} {k : ℤ × ℤ}
    (h : ¬ (Gen.lookupConn g k).isSome = true) :
    ∀ p ∈ g.connections, p.1 ≠ k := by
  intro p hp hpk
  apply h
  unfold Gen.lookupConn
  cases hfind : g.connections.find? (fun q => decide (q.1 = k)) with
  | none => exact absurd hpk (by simpa using List.find?_eq_none.mp hfind p hp)
  | some q => rfl

theorem connKeys_map_keep (conns : List ((ℤ × ℤ) × Gen.ConnectionGene))
    (k : ℤ × ℤ) (f : Gen.ConnectionGene → Gen.ConnectionGene) :
    (conns.map (fun p => if p.1 = k then (p.1, f p.2) else p)).map Prod.fst =
      conns.map Prod.fst := by
  rw [List.map_map]
  apply List.map_congr_left
  intro p _
  dsimp only [Function.comp]
  split <;> rfl

/-- Acyclicity of the full connection-key graph is preserved by
`mutate_add_connection` under feed-forward checking. -/
theorem mac_acyclic (output_keys : List ℤ) (g : Gen.Genome)
    (in_node out_node : ℤ) (w : ℚ) (en : Bool)
    (hacyc : Gen.Acyclic (Gen.connKeys g)) :
    Gen.Acyclic (Gen.connKeys (Gen.mutate_add_connection output_keys true g
      in_node out_node w en)) := by
  unfold Gen.mutate_add_connection
  split
  · exact hacyc
  · dsimp only
    split
    · exact hacyc
    · next hdup =>
      split
      · exact hacyc
      · split
        · exact hacyc
        · next hcyc =>
          have hcc : Graphs.createsCycle (Gen.connKeys g) (in_node, out_node) ≠
              true := fun hc => hcyc ⟨rfl, hc⟩
          have hne : in_node ≠ out_node := fun h =>
            hcc ((createsCycle_iff (Gen.connKeys g) in_node out_node).mpr
              (Or.inl h))
          have hnt : ¬ Relation.TransGen (Graphs.Edge (Gen.connKeys g))
              out_node in_node := fun h =>
            hcc ((createsCycle_iff (Gen.connKeys g) in_node out_node).mpr
              (Or.inr h))
          have hkeys : Gen.connKeys { g with
              connections := Util.setKV g.connections (in_node, out_node)
                ⟨(in_node, out_node), w, en⟩ } =
              Gen.connKeys g ++ [(in_node, out_node)] := by
            unfold Gen.connKeys
            dsimp only
            rw [setKV_absent _ _ _ (lookupConn_none_keys hdup)]
            simp
          rw [hkeys]
          refine acyclic_iff_rel (fun a b => edge_append_iff _ _ a b) ?_
          apply acyclic_add_edge hacyc
          intro h
          rcases Relation.reflTransGen_iff_eq_or_transGen.mp h with heq | htg
          · exact hne heq
          · exact hnt htg

/-- Acyclicity of the full connection-key graph is preserved by the
node-splitting branch of `mutate_add_node` (and by its
no-connection fallback). -/
theorem man_acyclic (output_keys : List ℤ) (surer : Bool) (g : Gen.Genome)
    (c : (ℤ × ℤ) × Gen.ConnectionGene) (newNodeId : ℤ)
    (newNode : Gen.NodeGene) (ac_in ac_out : ℤ) (ac_w : ℚ) (ac_en : Bool)
    (hacyc : Gen.Acyclic (Gen.connKeys g)) (hc : c ∈ g.connections)
    (hfresh : ∀ k ∈ Gen.connKeys g, k.1 ≠ newNodeId ∧ k.2 ≠ newNodeId) :
    Gen.Acyclic (Gen.connKeys (Gen.mutate_add_node output_keys true surer g c
      newNodeId newNode ac_in ac_out ac_w ac_en)) := by
  unfold Gen.mutate_add_node
  split
  · next hlen =>
    exact absurd hc (by simp [List.length_eq_zero.mp hlen])
  · dsimp only
    have hkey : c.1 ∈ Gen.connKeys g := List.mem_map.mpr ⟨c, hc, rfl⟩
    have hni : newNodeId ≠ c.1.1 := fun h => (hfresh c.1 hkey).1 h.symm
    have hno : newNodeId ≠ c.1.2 := fun h => (hfresh c.1 hkey).2 h.symm
    have hio : Graphs.Edge (Gen.connKeys g) c.1.1 c.1.2 := by
      unfold Graphs.Edge
      simpa using hkey
    have hfo : ∀ b, ¬ Graphs.Edge (Gen.connKeys g) newNodeId b := by
      intro b hb
      exact (hfresh (newNodeId, b) hb).1 rfl
    have hfi : ∀ a, ¬ Graphs.Edge (Gen.connKeys g) a newNodeId := by
      intro a ha
      exact (hfresh (a, newNodeId) ha).2 rfl
    have hmapped : ∀ p ∈ g.connections.map (fun p =>
        if p.1 = c.1 then (p.1, { p.2 with enabled := false }) else p),
        p.1 ∈ Gen.connKeys g := by
      intro p hp
      rcases List.mem_map.mp hp with ⟨q, hq, rfl⟩
      show (if q.1 = c.1 then (q.1, { q.2 with enabled := false }) else q).1 ∈
        g.connections.map Prod.fst
      have hfst : (if q.1 = c.1 then (q.1, { q.2 with enabled := false })
          else q).1 = q.1 := by
        split <;> rfl
      rw [hfst]
      exact List.mem_map.mpr ⟨q, hq, rfl⟩
    have habs1 : ∀ p ∈ g.connections.map (fun p =>
        if p.1 = c.1 then (p.1, { p.2 with enabled := false }) else p),
        p.1 ≠ (c.1.1, newNodeId) := by
      intro p hp hpk
      exact (hfresh p.1 (hmapped p hp)).2 (by rw [hpk])
    have hset1 : Util.setKV (g.connections.map (fun p =>
        if p.1 = c.1 then (p.1, { p.2 with enabled := false }) else p))
        (c.1.1, newNodeId) ⟨(c.1.1, newNodeId), 1, true⟩ =
        (g.connections.map (fun p =>
          if p.1 = c.1 then (p.1, { p.2 with enabled := false }) else p)) ++
          [((c.1.1, newNodeId), ⟨(c.1.1, newNodeId), 1, true⟩)] :=
      setKV_absent _ _ _ habs1
    have habs2 : ∀ p ∈ (g.connections.map (fun p =>
        if p.1 = c.1 then (p.1, { p.2 with enabled := false }) else p)) ++
          [((c.1.1, newNodeId), (⟨(c.1.1, newNodeId), 1, true⟩ :
            Gen.ConnectionGene))],
        p.1 ≠ (newNodeId, c.1.2) := by
      intro p hp hpk
      rcases List.mem_append.mp hp with hp | hp
      · exact (hfresh p.1 (hmapped p hp)).1 (by rw [hpk])
      · rw [List.mem_singleton] at hp
        rw [hp] at hpk
        exact hni (congrArg Prod.fst hpk).symm
    have hkeys : Gen.connKeys { g with
        nodes := g.nodes ++ [(newNodeId, newNode)]
        connections := Util.setKV (Util.setKV (g.connections.map (fun p =>
          if p.1 = c.1 then (p.1, { p.2 with enabled := false }) else p))
          (c.1.1, newNodeId) ⟨(c.1.1, newNodeId), 1, true⟩)
          (newNodeId, c.1.2) ⟨(newNodeId, c.1.2), c.2.weight, true⟩ } =
        (Gen.connKeys g ++ [(c.1.1, newNodeId)]) ++ [(newNodeId, c.1.2)] := by
      unfold Gen.connKeys
      dsimp only
      have hmk : (g.connections.map (fun p =>
          if p.1 = c.1 then (p.1, { p.2 with enabled := false }) else p)).map
            Prod.fst = g.connections.map Prod.fst :=
        connKeys_map_keep g.connections c.1 (fun cg => { cg with enabled := false })
      rw [hset1, setKV_absent _ _ _ habs2, List.map_append, List.map_append, hmk]
      rfl
    rw [hkeys]
    refine acyclic_iff_rel ?_ (acyclic_split hacyc hio hfo hfi hni hno)
    intro a b
    rw [edge_append_iff, edge_append_iff]

/-- A sufficient acyclicity criterion used to instantiate concrete
witnesses: every edge strictly increases the node key. -/
theorem acyclic_of_increasing (E : List (ℤ × ℤ)) (h : ∀ c ∈ E, c.1 < c.2) :
    Gen.Acyclic E := by
  have hmono : ∀ a b, Relation.TransGen (Graphs.Edge E) a b → a < b := by
    intro a b htg
    induction htg with
    | single hs => exact h _ hs
    | tail _ hs ih => exact lt_trans ih (h _ hs)
  intro x hx
  exact lt_irrefl x (hmono x x hx)

/-- Claim C4: when the configuration requires feed-forward topology
(`feed_forward = true`), the structural mutation operators preserve
acyclicity of the genome's enabled-connection subgraph.
`mutate_add_connection` silently declines — returns the genome unchanged,
raising no error — when the sampled pair is a duplicate connection, an
output-to-output pair, or a pair for which `createsCycle` is true; and
under the invariant that feed-forward checking maintains (the graph of all
connection keys, enabled or disabled, is acyclic — `createsCycle` is
consulted over all of them before insertion), `mutate_add_connection`
keeps both the full connection graph and the enabled subgraph acyclic, and
so does the connection split of `mutate_add_node` (whose fresh node key,
handed out by `get_new_node_key`, is an endpoint of no existing
connection). -/
theorem mutations_preserve_acyclicity (output_keys : List ℤ) (g : Gen.Genome)
    (in_node out_node : ℤ) (w : ℚ) (en : Bool) (surer : Bool)
    (c : (ℤ × ℤ) × Gen.ConnectionGene) (newNodeId : ℤ)
    (newNode : Gen.NodeGene) (ac_in ac_out : ℤ) (ac_w : ℚ) (ac_en : Bool)
    (hacyc : Gen.Acyclic (Gen.connKeys g)) :
    ((Gen.lookupConn g (in_node, out_node)).isSome = true →
      Gen.mutate_add_connection output_keys true g in_node out_node w en = g) ∧
    (in_node ∈ output_keys ∧ out_node ∈ output_keys →
      Gen.mutate_add_connection output_keys true g in_node out_node w en = g) ∧
    (Graphs.createsCycle (Gen.connKeys g) (in_node, out_node) = true →
      Gen.mutate_add_connection output_keys true g in_node out_node w en = g) ∧
    (Gen.Acyclic (Gen.connKeys (Gen.mutate_add_connection output_keys true g
        in_node out_node w en)) ∧
      Gen.Acyclic (Gen.enabledKeys (Gen.mutate_add_connection output_keys true
        g in_node out_node w en))) ∧
    (c ∈ g.connections →
      (∀ k ∈ Gen.connKeys g, k.1 ≠ newNodeId ∧ k.2 ≠ newNodeId) →
      Gen.Acyclic (Gen.connKeys (Gen.mutate_add_node output_keys true surer g
        c newNodeId newNode ac_in ac_out ac_w ac_en)) ∧
      Gen.Acyclic (Gen.enabledKeys (Gen.mutate_add_node output_keys true surer
        g c newNodeId newNode ac_in ac_out ac_w ac_en))) := by
  refine ⟨?_, ?_, ?_, ?_, ?_⟩
  · intro hdup
    unfold Gen.mutate_add_connection
    split
    · rfl
    · dsimp only
      rw [if_pos hdup]
  · intro hpair
    unfold Gen.mutate_add_connection
    dsimp only
    simp only [if_pos hpair, ite_self]
  · intro hcyc
    unfold Gen.mutate_add_connection
    dsimp only
    have h3 : (True ∧
        Graphs.createsCycle (Gen.connKeys g) (in_node, out_node) = true) :=
      ⟨trivial, hcyc⟩
    simp only [if_pos h3, ite_self]
  · exact ⟨mac_acyclic output_keys g in_node out_node w en hacyc,
      acyclic_enabled_of_connKeys
        (mac_acyclic output_keys g in_node out_node w en hacyc)⟩
  · intro hc hfresh
    exact ⟨man_acyclic output_keys surer g c newNodeId newNode ac_in ac_out
        ac_w ac_en hacyc hc hfresh,
      acyclic_enabled_of_connKeys (man_acyclic output_keys surer g c newNodeId
        newNode ac_in ac_out ac_w ac_en hacyc hc hfresh)⟩

/-- Witness for `mutations_preserve_acyclicity`: splitting the only
connection of a one-connection genome keeps both graphs acyclic. -/
theorem mutations_preserve_acyclicity_witness :
    Gen.Acyclic (Gen.connKeys (Gen.mutate_add_node [0] true false
      (Gen.Genome.mk 0 [(0, ⟨0, 0, 0, "sigmoid", "sum"⟩)]
        [((-1, 0), ⟨(-1, 0), 1, true⟩)] none)
      ((-1, 0), ⟨(-1, 0), 1, true⟩) 1 ⟨1, 0, 0, "sigmoid", "sum"⟩
      (-1) 0 1 true)) ∧
    Gen.Acyclic (Gen.enabledKeys (Gen.mutate_add_node [0] true false
      (Gen.Genome.mk 0 [(0, ⟨0, 0, 0, "sigmoid", "sum"⟩)]
        [((-1, 0), ⟨(-1, 0), 1, true⟩)] none)
      ((-1, 0), ⟨(-1, 0), 1, true⟩) 1 ⟨1, 0, 0, "sigmoid", "sum"⟩
      (-1) 0 1 true)) :=
  (mutations_preserve_acyclicity [0]
    (Gen.Genome.mk 0 [(0, ⟨0, 0, 0, "sigmoid", "sum"⟩)]
      [((-1, 0), ⟨(-1, 0), 1, true⟩)] none)
    (-1) 0 1 true false ((-1, 0), ⟨(-1, 0), 1, true⟩) 1
    ⟨1, 0, 0, "sigmoid", "sum"⟩ (-1) 0 1 true
    (acyclic_of_increasing _ (by decide))).2.2.2.2 (by decide) (by decide)

/-- Claim C8: for every call to `DefaultReproduction.reproduce`, the
returned next-generation population holds at most `pop_size` genomes,
whatever the spawn quotas, the elitism setting, and the number of species:
elites and offspring are only inserted while the new population is below
`pop_size`. -/
theorem reproduce_size_bound (cfg : Repro.RConfig)
    (stag : List (ℤ × Repro.RSpecies × Bool)) (pop_size : ℕ)
    (childVal : ℕ → ℕ → ℕ → ℚ) (pick : ℕ → ℕ) (indexer : ℕ) :
    (Repro.reproduce cfg stag pop_size childVal pick indexer).length ≤
      pop_size := by
  unfold Repro.reproduce
  dsimp only
  split
  · simp
  · exact speciesLoop_length cfg pop_size childVal pick _ _ _ _ (by simp)

end NeatVerif
